import Mathlib

/-!
Verification of the weirdness/cost scoring core of `ftfy/badness.py`.
The model works on `List Char` as the Unicode string type, one element per
code point, matching Python `str` semantics where `len` counts code points.
`re.findall` with an alternation of fixed-length character-class patterns is
modelled by `reCount`: a left-to-right, non-overlapping scan that at each
position asks a matcher for the length of the first alternative that
matches, consumes that many characters on success, and advances one
character on failure.  The matcher functions mirror the alternatives of the
compiled regexes in their source order, since Python's alternation takes
the first alternative that matches, not the longest.
-/

/-- One step of `re.findall`-style scanning: `m s` returns the length of the
match of the compiled pattern at the start of `s`, or `none`.  The fuel
argument makes the recursion structural, so that the function evaluates
inside the kernel; `fuel ≥ s.length` always suffices. -/
def reCountF (m : List Char → Option Nat) : Nat → List Char → Nat
  | 0, _ => 0
  | _ + 1, [] => 0
  | fuel + 1, c :: rest =>
    match m (c :: rest) with
    | some n => 1 + reCountF m fuel (rest.drop (n - 1))
    | none => reCountF m fuel rest

/-- The number of non-overlapping matches found by the left-to-right scan,
i.e. `len(PATTERN.findall(s))`. -/
def reCount (m : List Char → Option Nat) (s : List Char) : Nat :=
  reCountF m s.length s

/-- C1 control characters U+0080..U+009F. -/
def isC1Control (c : Char) : Bool :=
  decide (0x80 ≤ c.toNat ∧ c.toNat ≤ 0x9F)

/-- The characters of `COMMON_SYMBOL_RE` in `badness.py`, in source order:
horizontal ellipsis, em dash, en dash, the four curly quotation marks,
inverted exclamation and question marks, degree sign, trade mark sign,
registered sign, the four angle quotation marks, no-break space, acute
accent, multiplication sign, sharp s, and the byte-order mark. -/
def commonSymbols : List Char :=
  ['…', '—', '–', '‘', '“', '’', '”',
   '¡', '¿', '°', '™', '®', '‹', '›',
   '«', '»', ' ', '´', '×', 'ß', '﻿']

def isCommonSymbol (c : Char) : Bool := commonSymbols.contains c

/-- Modelled from the spec: the word-character predicate `\w` of Python's
`re` module, whose exact boundary semantics the spec leaves open ("the exact
boundary semantics ... should be pinned down explicitly").  The model takes
ASCII alphanumerics and underscore together with the letters of the Latin-1,
Latin extended, IPA, Greek and Cyrillic ranges. -/
def isWordChar (c : Char) : Bool :=
  let n := c.toNat
  decide ((0x30 ≤ n ∧ n ≤ 0x39) ∨ (0x41 ≤ n ∧ n ≤ 0x5A) ∨ n = 0x5F ∨
    (0x61 ≤ n ∧ n ≤ 0x7A) ∨ n = 0xAA ∨ n = 0xB5 ∨ n = 0xBA ∨
    (0xC0 ≤ n ∧ n ≤ 0x2AF ∧ n ≠ 0xD7 ∧ n ≠ 0xF7) ∨
    (0x386 ≤ n ∧ n ≤ 0x3FF ∧ n ≠ 0x38B ∧ n ≠ 0x38D ∧ n ≠ 0x3A2) ∨
    (0x400 ≤ n ∧ n ≤ 0x481) ∨ (0x48A ≤ n ∧ n ≤ 0x4FF))

/-- Combining diacritical marks U+0300..U+036F; the only characters the NFC
model composes with a preceding base letter. -/
def isMark (c : Char) : Bool :=
  decide (0x300 ≤ c.toNat ∧ c.toNat ≤ 0x36F)

/-- Modelled from the spec: the canonical composition pairs used by NFC
("diacritic-plus-base-letter pairs that have a precomposed equivalent"),
restricted to the Latin-1 precomposed letters.  Each entry is
(base, combining mark, precomposed form). -/
def compTable : List ((Char × Char) × Char) :=
  [(('a', '̀'), 'à'), (('e', '̀'), 'è'),
   (('i', '̀'), 'ì'), (('o', '̀'), 'ò'),
   (('u', '̀'), 'ù'), (('A', '̀'), 'À'),
   (('E', '̀'), 'È'),
   (('a', '́'), 'á'), (('e', '́'), 'é'),
   (('i', '́'), 'í'), (('o', '́'), 'ó'),
   (('u', '́'), 'ú'), (('y', '́'), 'ý'),
   (('A', '́'), 'Á'), (('E', '́'), 'É'),
   (('a', '̂'), 'â'), (('e', '̂'), 'ê'),
   (('i', '̂'), 'î'), (('o', '̂'), 'ô'),
   (('u', '̂'), 'û'),
   (('a', '̃'), 'ã'), (('n', '̃'), 'ñ'),
   (('o', '̃'), 'õ'), (('A', '̃'), 'Ã'),
   (('N', '̃'), 'Ñ'),
   (('a', '̈'), 'ä'), (('e', '̈'), 'ë'),
   (('i', '̈'), 'ï'), (('o', '̈'), 'ö'),
   (('u', '̈'), 'ü'), (('y', '̈'), 'ÿ'),
   (('c', '̧'), 'ç'), (('C', '̧'), 'Ç')]

/-- Canonical composition of an adjacent pair: `some d` when the pair
(base, mark) has the precomposed form `d`, else `none`. -/
def composePair (c1 c2 : Char) : Option Char :=
  if isMark c2 then
    (compTable.find? (fun e => e.1.1 == c1 && e.1.2 == c2)).map (fun e => e.2)
  else none

/-- Modelled from the spec: `unicodedata.normalize('NFC', text)` (the
normalizer is not part of the repository).  One left-to-right pass that
replaces each composable (base, mark) pair by its precomposed form.  The
fuel argument makes the recursion structural; `fuel ≥ l.length` suffices. -/
def nfcF : Nat → List Char → List Char
  | 0, l => l
  | _ + 1, [] => []
  | _ + 1, [c] => [c]
  | fuel + 1, c1 :: c2 :: rest =>
    match composePair c1 c2 with
    | some d => nfcF fuel (d :: rest)
    | none => c1 :: nfcF fuel (c2 :: rest)

def nfc (l : List Char) : List Char := nfcF l.length l

/-- A list is NFC-normalized when no adjacent pair composes. -/
def nfcNormed : List Char → Bool
  | c1 :: c2 :: rest => !(composePair c1 c2).isSome && nfcNormed (c2 :: rest)
  | _ => true

/-- Modelled from the spec: `chars_to_classes` of `ftfy.chardata` (an
external collaborator not included under `src/`).  Maps every character to
one symbol of the category alphabet documented at the top of `badness.py`:
`L` Latin capital, `l` Latin lowercase, `A` non-Latin capital/titlecase,
`a` non-Latin lowercase, `C` non-cased letter, `X` control character,
`m` letter modifier, `M` mark, `N` miscellaneous number, `1` math/currency
symbol, `2` symbol modifier, `3` other symbol, `i` IPA letter, `P` private
use, `_` unassigned, space for whitespace and `o` for everything else.
Common symbol modifiers such as the circumflex and acute accents are set
aside into class `o`, as the source comments describe; the classification
is total, so every character receives exactly one tag. -/
def classifyChar (c : Char) : Char :=
  let n := c.toNat
  if 0x80 ≤ n ∧ n ≤ 0x9F then 'X'
  else if n = 0x20 ∨ n = 0x9 ∨ n = 0xA ∨ n = 0xB ∨ n = 0xC ∨ n = 0xD ∨
      n = 0x1C ∨ n = 0x1D ∨ n = 0x1E ∨ n = 0x1F ∨ n = 0xA0 ∨ n = 0x1680 ∨
      (0x2000 ≤ n ∧ n ≤ 0x200A) ∨ n = 0x2028 ∨ n = 0x2029 ∨ n = 0x202F ∨
      n = 0x205F ∨ n = 0x3000 then ' '
  else if n < 0x20 ∨ n = 0x7F then 'X'
  else if 0x41 ≤ n ∧ n ≤ 0x5A then 'L'
  else if 0x61 ≤ n ∧ n ≤ 0x7A then 'l'
  else if n < 0xA1 then 'o'
  else if n = 0xA1 then 'o'
  else if 0xA2 ≤ n ∧ n ≤ 0xA5 then '1'
  else if n = 0xA6 then '3'
  else if n = 0xA7 then 'o'
  else if n = 0xA8 then '2'
  else if n = 0xA9 then '3'
  else if n = 0xAA then 'C'
  else if n = 0xAB then 'o'
  else if n = 0xAC then '1'
  else if n = 0xAD then 'o'
  else if n = 0xAE then '3'
  else if n = 0xAF then '2'
  else if n = 0xB0 then '3'
  else if n = 0xB1 then '1'
  else if n = 0xB2 ∨ n = 0xB3 ∨ n = 0xB9 then 'N'
  else if n = 0xB4 then 'o'
  else if n = 0xB5 then 'a'
  else if n = 0xB6 ∨ n = 0xB7 then 'o'
  else if n = 0xB8 then '2'
  else if n = 0xBA then 'C'
  else if n = 0xBB then 'o'
  else if 0xBC ≤ n ∧ n ≤ 0xBE then 'N'
  else if n = 0xBF then 'o'
  else if n = 0xD7 ∨ n = 0xF7 then '1'
  else if 0xC0 ≤ n ∧ n ≤ 0xDE then 'L'
  else if 0xDF ≤ n ∧ n ≤ 0xFF then 'l'
  else if 0x100 ≤ n ∧ n ≤ 0x17F then (if n % 2 = 0 then 'L' else 'l')
  else if 0x180 ≤ n ∧ n ≤ 0x24F then 'l'
  else if 0x250 ≤ n ∧ n ≤ 0x2AF then 'i'
  else if 0x2B0 ≤ n ∧ n ≤ 0x2FF then 'm'
  else if 0x300 ≤ n ∧ n ≤ 0x36F then 'M'
  else if n = 0x378 ∨ n = 0x379 ∨ n = 0x380 ∨ n = 0x381 ∨ n = 0x382 ∨ n = 0x383 then '_'
  else if 0x370 ≤ n ∧ n ≤ 0x3FF then (if 0x386 ≤ n ∧ n ≤ 0x3AB then 'A' else 'a')
  else if 0x400 ≤ n ∧ n ≤ 0x4FF then (if n < 0x430 then 'A' else 'a')
  else if 0x530 ≤ n ∧ n ≤ 0x6FF then 'C'
  else if 0x2010 ≤ n ∧ n ≤ 0x2027 then 'o'
  else if 0x2030 ≤ n ∧ n ≤ 0x205E then 'o'
  else if 0x2070 ≤ n ∧ n ≤ 0x209F then 'N'
  else if 0x20A0 ≤ n ∧ n ≤ 0x20CF then '1'
  else if 0x20D0 ≤ n ∧ n ≤ 0x20FF then 'M'
  else if 0x2100 ≤ n ∧ n ≤ 0x214F then '3'
  else if 0x2150 ≤ n ∧ n ≤ 0x218F then 'N'
  else if 0x2190 ≤ n ∧ n ≤ 0x22FF then '1'
  else if 0x2300 ≤ n ∧ n ≤ 0x27BF then '3'
  else if 0x3040 ≤ n ∧ n ≤ 0x30FF then 'C'
  else if 0x4E00 ≤ n ∧ n ≤ 0x9FFF then 'C'
  else if 0xAC00 ≤ n ∧ n ≤ 0xD7AF then 'C'
  else if (0xE000 ≤ n ∧ n ≤ 0xF8FF) ∨ (0xF0000 ≤ n ∧ n ≤ 0xFFFFD) ∨
      (0x100000 ≤ n ∧ n ≤ 0x10FFFD) then 'P'
  else if (0xFDD0 ≤ n ∧ n ≤ 0xFDEF) ∨ n = 0xFFFE ∨ n = 0xFFFF ∨
      (0x30000 ≤ n ∧ n ≤ 0xDFFFF) then '_'
  else 'o'

/-- The classified string: one category tag per character of the input. -/
def chars_to_classes (s : List Char) : List Char := s.map classifyChar

/-- First alternative of a regex alternation whose guard is true, returning
its match length; Python alternation takes the first alternative that
matches, not the longest. -/
def firstMatch : List (Bool × Nat) → Option Nat
  | [] => none
  | (b, n) :: rest => if b then some n else firstMatch rest

/-- The one-character weirdness groups, as a predicate on class characters. -/
def isSingleWeird (c : Char) : Bool :=
  c == '2' || c == 'X' || c == 'P' || c == '_'

/-- Matching of one alternative group of `WEIRDNESS_RE` against a
single-character class string: only the one-character groups `2`, `X`,
`P`, `_` can fire. -/
def wMatch1 (c : Char) : Option Nat :=
  if isSingleWeird c then some 1 else none

/-- First match among the groups of `WEIRDNESS_RE` at a position with at
least two remaining class characters, in the order the groups are appended
by `_make_weirdness_regex`: `[^CM]M`, `[Ll][AaC]`, `[AaC][Ll]`, `[LA]i`,
`i[LA]`, `2`, `X`, `P`, `_`, then the exclusive-category pairs `M[mN13]`,
`m[MN13]`, `N[Mm13]`, `1[MmN3]`, `3[MmN1]`.  Returns the length of the
matched group (Python alternation takes the first alternative that
matches). -/
def wMatch2 (c d : Char) : Option Nat :=
  firstMatch
    [(!(c == 'C' || c == 'M') && d == 'M', 2),
     ((c == 'L' || c == 'l') && (d == 'A' || d == 'a' || d == 'C'), 2),
     ((c == 'A' || c == 'a' || c == 'C') && (d == 'L' || d == 'l'), 2),
     ((c == 'L' || c == 'A') && d == 'i', 2),
     (c == 'i' && (d == 'L' || d == 'A'), 2),
     (isSingleWeird c, 1),
     (c == 'M' && (d == 'm' || d == 'N' || d == '1' || d == '3'), 2),
     (c == 'm' && (d == 'M' || d == 'N' || d == '1' || d == '3'), 2),
     (c == 'N' && (d == 'M' || d == 'm' || d == '1' || d == '3'), 2),
     (c == '1' && (d == 'M' || d == 'm' || d == 'N' || d == '3'), 2),
     (c == '3' && (d == 'M' || d == 'm' || d == 'N' || d == '1'), 2)]

/-- `WEIRDNESS_RE` as a matcher: the length of the first matching group at
the start of a class string, if any. -/
def wMatch : List Char → Option Nat
  | [] => none
  | [c] => wMatch1 c
  | c :: d :: _ => wMatch2 c d

/-- Test an optional character against a predicate; `none` (end of string)
never matches, like a consuming regex atom past the end of input. -/
def testO (f : Char → Bool) : Option Char → Bool
  | some c => f c
  | none => false

/-- Modelled from the spec: lead characters of the first two
`MOJIBAKE_SYMBOL_RE` alternatives ("literal byte-garble signatures typical
of Latin-1/Windows-125x ... mis-decoding").  The repository copy of
`badness.py` replaced every non-ASCII byte of these character classes by
`?`, so the membership is reconstructed: UTF-8 lead bytes 0xC2/0xC3
mis-decoded through ISO-8859-1 and ISO-8859-2. -/
def mojiLead1 : List Char := ['Â', 'Ã', 'Ă']

/-- Modelled from the spec: the trailing class of the first alternative,
`[\x80-\x9f ...]` in the source with the rest of the class destroyed;
reconstructed as the C1 range (which survives in the source) together with
Windows-1252 punctuation and the printable Latin-1 high punctuation. -/
def mojiTail1 (c : Char) : Bool :=
  isC1Control c ||
  ['€', '‚', 'ƒ', '„', '…', '†', '‡', 'ˆ', '‰', 'Š', '‹', 'Œ', 'Ž',
   '‘', '’', '“', '”', '•', '–', '—', '˜', '™', 'š', '›', 'œ', 'ž', 'Ÿ',
   '¡', '¢', '£', '¤', '¥', '¦', '§', '¨', '©', 'ª', '«', '¬', '®', '¯',
   '°', '±', '²', '³', '´', 'µ', '¶', '·', '¸', '¹', 'º', '»', '¼', '½',
   '¾', '¿'].contains c

/-- Modelled from the spec: the middle class of the second alternative
(characters "we have to be a little more cautious about if they're at the
end of a word, but totally okay to fix in the middle"); destroyed in the
repository copy, reconstructed as letter-like Windows-125x garble. -/
def mojiMid2 : List Char := ['Š', 'Œ', 'Ž', 'š', 'œ', 'ž', 'ª', 'º']

/-- Modelled from the spec: MacRoman garble lead characters of the third
alternative ("Similar mojibake of low-numbered characters in MacRoman");
the two reconstructed leads are the MacRoman decodings of UTF-8 lead bytes
0xC3 and 0xC2. -/
def mojiLead3 : List Char := ['√', 'ƒ']

/-- Modelled from the spec: the trailing class of the MacRoman alternative,
destroyed in the repository copy; reconstructed as MacRoman decodings of
UTF-8 continuation bytes, leaving out mathy and eye-like characters as the
surviving comment describes. -/
def mojiTail3 : List Char :=
  ['Ä', 'Å', 'Ç', 'É', 'Ñ', 'Ü', 'á', 'à', 'â', 'ä', 'ã', 'å', 'ç',
   'é', 'è', 'ê', 'ë', 'í', 'ì', 'î', 'ï', 'ñ', 'ô', 'õ', 'ú', 'ù',
   'û', '†', '¢', '£', '§', '•', '¶', 'ß', '®', '©', '´', '¨', 'Æ',
   'Ø', '¥', 'ª', 'º', 'æ', 'ø', '¿', '¬', 'ƒ', '«', '»', 'À', 'Õ',
   'Œ', 'œ', '–', '—', '“', '”', '‘', '’', '÷', 'ÿ', 'Ÿ', '⁄', '€',
   '‹', '›', 'ﬁ', 'ﬂ', '‡', '·', '‚', '„', '‰', 'Ë', 'È', 'Í', 'Î',
   'Ï', 'Ì', 'Ó', 'Ô', 'Ò', 'Ú', 'Û', 'Ù', 'ı', 'ˆ', '˜', '¯', '˘',
   '˙', '˚', '¸', '˝', '˛', 'ˇ']

/-- Modelled from the spec: the mid-word MacRoman class of the fourth
alternative, whose surviving comments name `√¢` (mojibake for `¢`) and the
`√±` sequence; destroyed in the repository copy. -/
def mojiMid4 : List Char := ['¢', '±']

/-- Modelled from the spec: the trailing class of the Windows-1251
alternative (`вЂ` followed by one of the Windows-1251 decodings of UTF-8
continuation bytes of Windows punctuation); destroyed in the repository
copy. -/
def mojiTail7 : List Char :=
  ['љ', 'њ', 'ћ', 'ќ', 'ў', 'џ', 'ѓ', 'ґ', 'Ј', 'ѕ', 'і']

/-- `MOJIBAKE_SYMBOL_RE` as a matcher: the length of the first matching
alternative at the start of the (raw, NFC-normalized) text, if any, in the
source order of the seven alternatives:
`[ÂÃĂ][\x80-\x9f…]`, `[ÂÃĂ][ŠŒŽ…]\w`, `[√ƒ][ÄÅÇ…]`, `\w√[¢±]\w`,
`[ðđ][Ÿ\x9f]`, `â€`, and `вЂ[љњ…]`.  Every alternative is at least two
characters long; there are no one-character alternatives. -/
def mMatch : List Char → Option Nat
  | c0 :: c1 :: rest =>
    firstMatch
      [(mojiLead1.contains c0 && mojiTail1 c1, 2),
       (mojiLead1.contains c0 && mojiMid2.contains c1 &&
         testO isWordChar rest.head?, 3),
       (mojiLead3.contains c0 && mojiTail3.contains c1, 2),
       (isWordChar c0 && c1 == '√' && testO (fun x => mojiMid4.contains x) rest.head? &&
         testO isWordChar (rest.drop 1).head?, 4),
       ((c0 == 'ð' || c0 == 'đ') && (c1 == 'Ÿ' || c1 == '\u009F'), 2),
       (c0 == 'â' && c1 == '€', 2),
       (c0 == 'в' && c1 == 'Ђ' && testO (fun x => mojiTail7.contains x) rest.head?, 3)]
  | _ => none

/-- `COMMON_SYMBOL_RE` as a matcher: a single character class, so each
match has length one. -/
def cMatch : List Char → Option Nat
  | c :: _ => if isCommonSymbol c then some 1 else none
  | [] => none

/-- `sequence_weirdness` of `badness.py`: normalize to NFC, count weirdness
matches on the classified string and mojibake/common-symbol matches on the
raw normalized text, and return `weirdness * 2 + (mojibake * 2 - common)`. -/
def sequence_weirdness (text : List Char) : Int :=
  let text2 := nfc text
  let weirdness := reCount wMatch (chars_to_classes text2)
  let adjustment := (reCount mMatch text2 : Int) * 2 - (reCount cMatch text2 : Int)
  (weirdness : Int) * 2 + adjustment

/-- `text_cost` of `badness.py`: the weirdness plus the length of the
(un-normalized) input. -/
def text_cost (text : List Char) : Int :=
  sequence_weirdness text + text.length

/-- The class characters that may appear as the second character of a
two-character weirdness group. -/
def sndClass (d : Char) : Bool :=
  d == 'M' || d == 'A' || d == 'a' || d == 'C' || d == 'L' || d == 'l' ||
  d == 'i' || d == 'm' || d == 'N' || d == '1' || d == '3'

theorem reCountF_nil (m : List Char → Option Nat) (fuel : Nat) :
    reCountF m fuel [] = 0 := by
  cases fuel <;> rfl

theorem reCountF_congr (m : List Char → Option Nat) :
    ∀ (f g : Nat) (s : List Char), s.length ≤ f → s.length ≤ g →
      reCountF m f s = reCountF m g s := by
  intro f
  induction f with
  | zero =>
    intro g s hf _
    have : s = [] := List.length_eq_zero.mp (Nat.le_zero.mp hf)
    subst this
    simp [reCountF_nil]
  | succ f ih =>
    intro g s hf hg
    cases s with
    | nil => simp [reCountF_nil]
    | cons c rest =>
      have hg1 : 1 ≤ g := le_trans (by simp) hg
      obtain ⟨g', rfl⟩ : ∃ g', g = g' + 1 :=
        ⟨g - 1, by omega⟩
      simp only [List.length_cons] at hf hg
      simp only [reCountF]
      cases hm : m (c :: rest) with
      | none =>
        exact ih g' rest (by omega) (by omega)
      | some n =>
        have hlen : (rest.drop (n - 1)).length ≤ rest.length := by
          simp [List.length_drop]
        dsimp only
        rw [ih g' (rest.drop (n - 1)) (by omega) (by omega)]

theorem reCount_eq_reCountF (m : List Char → Option Nat) (f : Nat)
    (s : List Char) (h : s.length ≤ f) : reCount m s = reCountF m f s :=
  reCountF_congr m s.length f s le_rfl h

theorem reCountF_le_length (m : List Char → Option Nat) :
    ∀ (fuel : Nat) (s : List Char), reCountF m fuel s ≤ s.length := by
  intro fuel
  induction fuel with
  | zero => intro s; simp [reCountF]
  | succ f ih =>
    intro s
    cases s with
    | nil => simp [reCountF_nil]
    | cons c rest =>
      simp only [reCountF]
      cases hm : m (c :: rest) with
      | none => exact le_trans (ih rest) (by simp)
      | some n =>
        have h1 := ih (rest.drop (n - 1))
        have h2 : (rest.drop (n - 1)).length ≤ rest.length := by
          simp [List.length_drop]
        simp only [List.length_cons]
        omega

theorem reCount_le_length (m : List Char → Option Nat) (s : List Char) :
    reCount m s ≤ s.length :=
  reCountF_le_length m s.length s

theorem nfcF_nil (f : Nat) : nfcF f [] = [] := by
  cases f <;> rfl

theorem nfcF_single (f : Nat) (c : Char) : nfcF f [c] = [c] := by
  cases f <;> rfl

theorem nfc_nil : nfc [] = [] := rfl

theorem nfc_single (c : Char) : nfc [c] = [c] := rfl

theorem nfc_cons2 (c1 c2 : Char) (rest : List Char) :
    nfc (c1 :: c2 :: rest) =
      match composePair c1 c2 with
      | some d => nfc (d :: rest)
      | none => c1 :: nfc (c2 :: rest) := by
  simp only [nfc, List.length_cons]
  rfl

theorem composePair_not_mark (c1 c2 : Char) (h : isMark c2 = false) :
    composePair c1 c2 = none := by
  simp [composePair, h]

theorem composePair_out (c1 c2 d : Char) (h : composePair c1 c2 = some d) :
    isMark d = false := by
  unfold composePair at h
  split at h
  · simp only [Option.map_eq_some'] at h
    obtain ⟨e, hfind, rfl⟩ := h
    have hmem := List.mem_of_find?_eq_some hfind
    have hall : ∀ e ∈ compTable, isMark e.2 = false := by decide
    exact hall e hmem
  · exact absurd h (by simp)

theorem nfc_length_le : ∀ (f : Nat) (l : List Char), (nfcF f l).length ≤ l.length := by
  intro f
  induction f with
  | zero => intro l; simp [nfcF]
  | succ f ih =>
    intro l
    match l with
    | [] => simp [nfcF_nil]
    | [c] => simp [nfcF_single]
    | c1 :: c2 :: rest =>
      simp only [nfcF]
      cases hcp : composePair c1 c2 with
      | some d =>
        have := ih (d :: rest)
        simp only [List.length_cons] at *
        omega
      | none =>
        have := ih (c2 :: rest)
        simp only [List.length_cons] at *
        omega

theorem nfc_length (l : List Char) : (nfc l).length ≤ l.length :=
  nfc_length_le l.length l

theorem nfc_ne_nil : ∀ (f : Nat) (l : List Char), l ≠ [] → nfcF f l ≠ [] := by
  intro f
  induction f with
  | zero => intro l h; simpa [nfcF]
  | succ f ih =>
    intro l h
    match l with
    | [c] => simp [nfcF_single]
    | c1 :: c2 :: rest =>
      simp only [nfcF]
      cases hcp : composePair c1 c2 with
      | some d => exact ih (d :: rest) (by simp)
      | none => simp

theorem nfc_head : ∀ (n : Nat) (l : List Char), l.length ≤ n →
    ∀ (h : Char) (t : List Char), nfc l = h :: t →
      l.head? = some h ∨ isMark h = false := by
  intro n
  induction n with
  | zero =>
    intro l hl h t hnfc
    have : l = [] := List.length_eq_zero.mp (Nat.le_zero.mp hl)
    subst this
    simp [nfc_nil] at hnfc
  | succ n ih =>
    intro l hl h t hnfc
    match l with
    | [] => simp [nfc_nil] at hnfc
    | [c] =>
      rw [nfc_single] at hnfc
      simp only [List.cons.injEq] at hnfc
      exact Or.inl (by simp [hnfc.1])
    | c1 :: c2 :: rest =>
      rw [nfc_cons2] at hnfc
      cases hcp : composePair c1 c2 with
      | some d =>
        rw [hcp] at hnfc
        simp only [List.length_cons] at hl
        rcases ih (d :: rest) (by simp; omega) h t hnfc with hh | hh
        · simp only [List.head?_cons, Option.some.injEq] at hh
          exact Or.inr (hh ▸ composePair_out c1 c2 d hcp)
        · exact Or.inr hh
      | none =>
        rw [hcp] at hnfc
        simp only [List.cons.injEq] at hnfc
        exact Or.inl (by simp [hnfc.1])

theorem nfc_of_normed : ∀ (l : List Char), nfcNormed l = true → nfc l = l := by
  intro l
  induction l with
  | nil => intro _; rfl
  | cons c tl ih =>
    intro h
    match tl, ih, h with
    | [], _, _ => exact nfc_single c
    | c2 :: rest, ih, h =>
      simp only [nfcNormed, Bool.and_eq_true, Bool.not_eq_true'] at h
      rw [nfc_cons2]
      cases hcp : composePair c c2 with
      | some d => rw [hcp] at h; simp at h
      | none => rw [ih h.2]

theorem nfc_normed : ∀ (n : Nat) (l : List Char), l.length ≤ n →
    nfcNormed (nfc l) = true := by
  intro n
  induction n with
  | zero =>
    intro l hl
    have : l = [] := List.length_eq_zero.mp (Nat.le_zero.mp hl)
    subst this; rfl
  | succ n ih =>
    intro l hl
    match l with
    | [] => rfl
    | [c] => rfl
    | c1 :: c2 :: rest =>
      simp only [List.length_cons] at hl
      rw [nfc_cons2]
      cases hcp : composePair c1 c2 with
      | some d => exact ih (d :: rest) (by simp; omega)
      | none =>
        cases hu : nfc (c2 :: rest) with
        | nil => exact absurd hu (nfc_ne_nil _ _ (by simp))
        | cons h t =>
          have hnorm : nfcNormed (h :: t) = true := hu ▸ ih (c2 :: rest) (by simp; omega)
          have hpair : composePair c1 h = none := by
            rcases nfc_head (n) (c2 :: rest) (by simp; omega) h t hu with hh | hh
            · simp only [List.head?_cons, Option.some.injEq] at hh
              exact hh ▸ hcp
            · exact composePair_not_mark c1 h hh
          simp [nfcNormed, hpair, hnorm]

theorem nfc_idem (l : List Char) : nfc (nfc l) = nfc l :=
  nfc_of_normed (nfc l) (nfc_normed l.length l le_rfl)

theorem nfc_no_mark : ∀ (l : List Char), (∀ c ∈ l, isMark c = false) → nfc l = l := by
  intro l
  induction l with
  | nil => intro _; rfl
  | cons c tl ih =>
    intro h
    match tl, ih, h with
    | [], _, _ => exact nfc_single c
    | c2 :: rest, ih, h =>
      rw [nfc_cons2, composePair_not_mark c c2 (h c2 (by simp)),
        ih (fun x hx => h x (List.mem_cons_of_mem c hx))]

theorem nfc_append_single : ∀ (n : Nat) (l : List Char) (c : Char),
    l.length ≤ n → isMark c = false → nfc (l ++ [c]) = nfc l ++ [c] := by
  intro n
  induction n with
  | zero =>
    intro l c hl _
    have : l = [] := List.length_eq_zero.mp (Nat.le_zero.mp hl)
    subst this
    simp [nfc_nil, nfc_single]
  | succ n ih =>
    intro l c hl hc
    match l with
    | [] => simp [nfc_nil, nfc_single]
    | [a] =>
      rw [List.singleton_append, nfc_cons2, composePair_not_mark a c hc, nfc_single,
        nfc_single]
      rfl
    | a :: b :: rest =>
      simp only [List.length_cons] at hl
      have heq : (a :: b :: rest) ++ [c] = a :: b :: (rest ++ [c]) := by simp
      rw [heq, nfc_cons2, nfc_cons2]
      cases hcp : composePair a b with
      | some d =>
        dsimp only
        have : d :: (rest ++ [c]) = (d :: rest) ++ [c] := by simp
        rw [this, ih (d :: rest) c (by simp; omega) hc]
      | none =>
        dsimp only
        have : b :: (rest ++ [c]) = (b :: rest) ++ [c] := by simp
        rw [this, ih (b :: rest) c (by simp; omega) hc]
        simp

theorem firstMatch_some : ∀ (l : List (Bool × Nat)) (n : Nat),
    firstMatch l = some n → ∃ p ∈ l, p.1 = true ∧ p.2 = n := by
  intro l
  induction l with
  | nil => intro n h; simp [firstMatch] at h
  | cons p rest ih =>
    intro n h
    obtain ⟨b, k⟩ := p
    simp only [firstMatch] at h
    cases b with
    | true =>
      simp only [if_true] at h
      exact ⟨(true, k), by simp, rfl, by simpa using h⟩
    | false =>
      simp only [Bool.false_eq_true, if_false] at h
      obtain ⟨q, hq, h1, h2⟩ := ih n h
      exact ⟨q, List.mem_cons_of_mem _ hq, h1, h2⟩

theorem firstMatch_none : ∀ (l : List (Bool × Nat)),
    firstMatch l = none → ∀ p ∈ l, p.1 = false := by
  intro l
  induction l with
  | nil => intro _ p hp; simp at hp
  | cons q rest ih =>
    intro h p hp
    obtain ⟨b, k⟩ := q
    simp only [firstMatch] at h
    cases b with
    | true => simp at h
    | false =>
      simp only [Bool.false_eq_true, if_false] at h
      rcases List.mem_cons.mp hp with rfl | hp'
      · rfl
      · exact ih h p hp'

theorem wMatch1_some (c : Char) (n : Nat) (h : wMatch1 c = some n) :
    n = 1 ∧ isSingleWeird c = true := by
  unfold wMatch1 at h
  by_cases h1 : isSingleWeird c = true
  · rw [if_pos h1] at h
    exact ⟨by simpa using h.symm, h1⟩
  · rw [if_neg h1] at h
    simp at h

theorem wMatch1_none (c : Char) (h : wMatch1 c = none) :
    isSingleWeird c = false := by
  unfold wMatch1 at h
  by_cases h1 : isSingleWeird c = true
  · rw [if_pos h1] at h
    simp at h
  · simpa using h1

theorem wMatch2_vals (c d : Char) (n : Nat) (h : wMatch2 c d = some n) :
    n = 1 ∨ n = 2 := by
  unfold wMatch2 at h
  obtain ⟨p, hp, h1, h2⟩ := firstMatch_some _ n h
  simp only [List.mem_cons, List.not_mem_nil, or_false] at hp
  rcases hp with rfl | rfl | rfl | rfl | rfl | rfl | rfl | rfl | rfl | rfl | rfl <;>
    subst h2 <;> simp

theorem wMatch2_one (c d : Char) (h : wMatch2 c d = some 1) :
    isSingleWeird c = true := by
  unfold wMatch2 at h
  obtain ⟨p, hp, h1, h2⟩ := firstMatch_some _ _ h
  simp only [List.mem_cons, List.not_mem_nil, or_false] at hp
  rcases hp with rfl | rfl | rfl | rfl | rfl | rfl | rfl | rfl | rfl | rfl | rfl
  all_goals try (simp at h2)
  exact h1

theorem wMatch2_none (c d : Char) (h : wMatch2 c d = none) :
    isSingleWeird c = false := by
  unfold wMatch2 at h
  have hfm := firstMatch_none _ h (isSingleWeird c, 1) (by simp)
  exact hfm

theorem wMatch2_two_snd (c d : Char) (h : wMatch2 c d = some 2) :
    sndClass d = true := by
  unfold wMatch2 at h
  obtain ⟨p, hp, h1, h2⟩ := firstMatch_some _ _ h
  simp only [List.mem_cons, List.not_mem_nil, or_false] at hp
  rcases hp with rfl | rfl | rfl | rfl | rfl | rfl | rfl | rfl | rfl | rfl | rfl
  all_goals try (simp at h2)
  all_goals simp only [Bool.and_eq_true, Bool.or_eq_true, beq_iff_eq] at h1
  all_goals simp only [sndClass, Bool.or_eq_true, beq_iff_eq]
  all_goals tauto

theorem sndClass_not_P (d : Char) (h : sndClass d = true) : (d == 'P') = false := by
  cases hd : d == 'P' with
  | false => rfl
  | true =>
    rw [beq_iff_eq] at hd
    subst hd
    simp [sndClass] at h

theorem sndClass_not_X (d : Char) (h : sndClass d = true) : (d == 'X') = false := by
  cases hd : d == 'X' with
  | false => rfl
  | true =>
    rw [beq_iff_eq] at hd
    subst hd
    simp [sndClass] at h

theorem wMatch2_X (c : Char) : wMatch2 c 'X' = wMatch1 c := by
  simp [wMatch2, wMatch1, firstMatch]

theorem reCountF_cons (m : List Char → Option Nat) (fuel : Nat) (c : Char)
    (rest : List Char) :
    reCountF m (fuel + 1) (c :: rest) =
      match m (c :: rest) with
      | some n => 1 + reCountF m fuel (rest.drop (n - 1))
      | none => reCountF m fuel rest := rfl

theorem wMatch_cons2 (c d : Char) (t : List Char) :
    wMatch (c :: d :: t) = wMatch2 c d := rfl

theorem weird_append_X : ∀ (fuel : Nat) (s : List Char),
    s.length + 1 ≤ fuel →
    reCountF wMatch fuel (s ++ ['X']) = reCountF wMatch fuel s + 1 := by
  intro fuel
  induction fuel with
  | zero => intro s h; omega
  | succ f ih =>
    intro s h
    match s with
    | [] =>
      have h1 : reCountF wMatch (f + 1) ['X'] = 1 + reCountF wMatch f [] := rfl
      show reCountF wMatch (f + 1) ['X'] = reCountF wMatch (f + 1) [] + 1
      rw [h1, reCountF_nil, reCountF_nil]
    | [a] =>
      have hf : 1 ≤ f := by simp at h; omega
      have hWa : wMatch ([a] ++ ['X']) = wMatch1 a := wMatch2_X a
      have hWb : wMatch [a] = wMatch1 a := rfl
      have hX : reCountF wMatch f ['X'] = 1 := by
        have := ih [] (by simpa using hf)
        simpa [reCountF_nil] using this
      show reCountF wMatch (f + 1) (a :: ['X']) = reCountF wMatch (f + 1) (a :: []) + 1
      rw [reCountF_cons, reCountF_cons]
      cases hw : wMatch1 a with
      | some n =>
        obtain ⟨rfl, _⟩ := wMatch1_some a n hw
        rw [show wMatch (a :: ['X']) = wMatch1 a from hWa, show wMatch (a :: []) = wMatch1 a from hWb, hw]
        simp [hX, reCountF_nil]
      | none =>
        rw [show wMatch (a :: ['X']) = wMatch1 a from hWa, show wMatch (a :: []) = wMatch1 a from hWb, hw]
        simp [hX, reCountF_nil]
    | a :: b :: t =>
      simp only [List.length_cons] at h
      have hW : wMatch ((a :: b :: t) ++ ['X']) = wMatch2 a b := rfl
      have hWb : wMatch (a :: b :: t) = wMatch2 a b := rfl
      show reCountF wMatch (f + 1) (a :: (b :: t ++ ['X'])) =
        reCountF wMatch (f + 1) (a :: b :: t) + 1
      rw [reCountF_cons, reCountF_cons]
      cases hw : wMatch2 a b with
      | some n =>
        rw [show wMatch (a :: (b :: t ++ ['X'])) = wMatch2 a b from rfl, hWb, hw]
        dsimp only
        rcases wMatch2_vals a b n hw with rfl | rfl
        · have hIH := ih (b :: t) (by simp; omega)
          simp only [List.cons_append] at hIH
          simp only [show (1 : Nat) - 1 = 0 from rfl, List.drop_zero,
            List.cons_append]
          rw [hIH]
          ring
        · have hIH := ih t (by omega)
          simp only [show (2 : Nat) - 1 = 1 from rfl, List.cons_append,
            List.drop_succ_cons, List.drop_zero]
          rw [hIH]
          ring
      | none =>
        rw [show wMatch (a :: (b :: t ++ ['X'])) = wMatch2 a b from rfl, hWb, hw]
        dsimp only
        exact ih (b :: t) (by simp; omega)

theorem reCountF_cons_some (m : List Char → Option Nat) (fuel : Nat) (c : Char)
    (rest : List Char) (n : Nat) (h : m (c :: rest) = some n) :
    reCountF m (fuel + 1) (c :: rest) = 1 + reCountF m fuel (rest.drop (n - 1)) := by
  rw [reCountF_cons, h]

theorem reCountF_cons_none (m : List Char → Option Nat) (fuel : Nat) (c : Char)
    (rest : List Char) (h : m (c :: rest) = none) :
    reCountF m (fuel + 1) (c :: rest) = reCountF m fuel rest := by
  rw [reCountF_cons, h]

theorem beq_false_symm {a b : Char} (h : (a == b) = false) : (b == a) = false := by
  cases hq : b == a with
  | false => rfl
  | true =>
    rw [beq_iff_eq] at hq
    subst hq
    simp at h

theorem count_cons_ne (a b : Char) (l : List Char) (h : (b == a) = false) :
    List.count a (b :: l) = List.count a l := by
  rw [List.count_cons, h]
  simp

theorem count_cons_le (a b : Char) (l : List Char) :
    List.count a (b :: l) ≤ List.count a l + 1 := by
  rw [List.count_cons]
  split_ifs <;> omega

theorem isSingleWeird_false_notP (c : Char) (h : isSingleWeird c = false) :
    (c == 'P') = false := by
  cases hP : c == 'P' with
  | false => rfl
  | true =>
    rw [beq_iff_eq] at hP
    subst hP
    simp [isSingleWeird] at h

theorem weird_count_P : ∀ (fuel : Nat) (s : List Char), s.length ≤ fuel →
    s.count 'P' ≤ reCountF wMatch fuel s := by
  intro fuel
  induction fuel with
  | zero =>
    intro s h
    have : s = [] := List.length_eq_zero.mp (Nat.le_zero.mp h)
    subst this
    simp
  | succ f ih =>
    intro s h
    match s with
    | [] => simp [reCountF_nil]
    | [c] =>
      cases hw : wMatch1 c with
      | some n =>
        rw [reCountF_cons_some wMatch f c [] n hw, List.drop_nil, reCountF_nil]
        have h1 := count_cons_le 'P' c []
        simp only [List.count_nil] at h1
        omega
      | none =>
        rw [reCountF_cons_none wMatch f c [] hw, reCountF_nil]
        have hP := isSingleWeird_false_notP c (wMatch1_none c hw)
        rw [count_cons_ne 'P' c [] hP]
        simp
    | c :: d :: t =>
      simp only [List.length_cons] at h
      cases hw : wMatch2 c d with
      | none =>
        rw [reCountF_cons_none wMatch f c (d :: t) hw]
        have hP := isSingleWeird_false_notP c (wMatch2_none c d hw)
        rw [count_cons_ne 'P' c (d :: t) hP]
        exact ih (d :: t) (by simp; omega)
      | some n =>
        rw [reCountF_cons_some wMatch f c (d :: t) n hw]
        rcases wMatch2_vals c d n hw with rfl | rfl
        · rw [show ((d :: t).drop (1 - 1)) = d :: t from rfl]
          have hIH := ih (d :: t) (by simp; omega)
          have h1 := count_cons_le 'P' c (d :: t)
          omega
        · rw [show ((d :: t).drop (2 - 1)) = t from rfl]
          have hIH := ih t (by omega)
          have h1 := count_cons_le 'P' c (d :: t)
          have hd := sndClass_not_P d (wMatch2_two_snd c d hw)
          rw [count_cons_ne 'P' d t hd] at h1
          omega

theorem weird_no_single : ∀ (fuel : Nat) (s : List Char),
    (∀ x ∈ s, isSingleWeird x = false) →
    2 * reCountF wMatch fuel s ≤ s.length := by
  intro fuel
  induction fuel with
  | zero => intro s _; simp [reCountF]
  | succ f ih =>
    intro s hs
    match s with
    | [] => simp [reCountF_nil]
    | [c] =>
      cases hw : wMatch1 c with
      | some n =>
        have hsg := (wMatch1_some c n hw).2
        rw [hs c (by simp)] at hsg
        simp at hsg
      | none =>
        rw [reCountF_cons_none wMatch f c [] hw, reCountF_nil]
        simp
    | c :: d :: t =>
      cases hw : wMatch2 c d with
      | none =>
        rw [reCountF_cons_none wMatch f c (d :: t) hw]
        have hIH := ih (d :: t) (fun x hx => hs x (List.mem_cons_of_mem c hx))
        simp only [List.length_cons] at hIH ⊢
        omega
      | some n =>
        rw [reCountF_cons_some wMatch f c (d :: t) n hw]
        rcases wMatch2_vals c d n hw with rfl | rfl
        · have hsg := wMatch2_one c d hw
          rw [hs c (by simp)] at hsg
          simp at hsg
        · rw [show ((d :: t).drop (2 - 1)) = t from rfl]
          have hIH := ih t (fun x hx =>
            hs x (List.mem_cons_of_mem c (List.mem_cons_of_mem d hx)))
          simp only [List.length_cons]
          omega

theorem contains_mem {l : List Char} {c : Char} (h : l.contains c = true) :
    c ∈ l := by
  simpa [List.contains, List.elem_eq_mem, decide_eq_true_eq] using h

theorem testO_true {f : Char → Bool} {o : Option Char} (h : testO f o = true) :
    ∃ c, o = some c ∧ f c = true := by
  cases o with
  | none => simp [testO] at h
  | some c => exact ⟨c, rfl, h⟩

theorem head?_some_len {l : List Char} {x : Char} (h : l.head? = some x) :
    1 ≤ l.length := by
  cases l with
  | nil => simp at h
  | cons a t => simp

theorem drop1_head?_some_len {l : List Char} {x : Char}
    (h : (l.drop 1).head? = some x) : 2 ≤ l.length := by
  cases l with
  | nil => simp at h
  | cons a t =>
    cases t with
    | nil => simp at h
    | cons b u => simp

theorem mMatch_nil : mMatch [] = none := rfl

theorem mMatch_single (c : Char) : mMatch [c] = none := rfl

theorem mMatch_le (s : List Char) (n : Nat) (h : mMatch s = some n) :
    2 ≤ n ∧ n ≤ s.length := by
  match s with
  | [] => simp [mMatch_nil] at h
  | [c] => simp [mMatch_single] at h
  | c0 :: c1 :: rest =>
    unfold mMatch at h
    obtain ⟨p, hp, h1, h2⟩ := firstMatch_some _ n h
    simp only [List.mem_cons, List.not_mem_nil, or_false] at hp
    rcases hp with rfl | rfl | rfl | rfl | rfl | rfl | rfl
    · exact ⟨by omega, by simp [h2.symm]⟩
    · simp only at h2
      subst h2
      refine ⟨by omega, ?_⟩
      simp only [Bool.and_eq_true] at h1
      obtain ⟨x, hx, _⟩ := testO_true h1.2
      have := head?_some_len hx
      simp only [List.length_cons]
      omega
    · exact ⟨by omega, by simp [h2.symm]⟩
    · simp only at h2
      subst h2
      refine ⟨by omega, ?_⟩
      simp only [Bool.and_eq_true] at h1
      obtain ⟨x, hx, _⟩ := testO_true h1.2
      have := drop1_head?_some_len hx
      simp only [List.length_cons]
      omega
    · exact ⟨by omega, by simp [h2.symm]⟩
    · exact ⟨by omega, by simp [h2.symm]⟩
    · simp only at h2
      subst h2
      refine ⟨by omega, ?_⟩
      simp only [Bool.and_eq_true] at h1
      obtain ⟨x, hx, _⟩ := testO_true h1.2
      have := head?_some_len hx
      simp only [List.length_cons]
      omega

theorem c1_not_word (c : Char) (h : isC1Control c = true) :
    isWordChar c = false := by
  simp only [isC1Control, decide_eq_true_eq] at h
  simp only [isWordChar, decide_eq_false_iff_not]
  omega

theorem c1_not_m4 (c : Char) (h : isC1Control c = true) : c ∉ mojiMid4 := by
  intro hmem
  simp only [mojiMid4, List.mem_cons, List.not_mem_nil, or_false] at hmem
  rcases hmem with rfl | rfl <;> exact absurd h (by decide)

theorem c1_not_m7 (c : Char) (h : isC1Control c = true) : c ∉ mojiTail7 := by
  intro hmem
  simp only [mojiTail7, List.mem_cons, List.not_mem_nil, or_false] at hmem
  rcases hmem with rfl | rfl | rfl | rfl | rfl | rfl | rfl | rfl | rfl | rfl | rfl <;>
    exact absurd h (by decide)

theorem mMatch_append_c1 (c : Char) (hc : isC1Control c = true)
    (a b : Char) (rest : List Char) :
    mMatch (a :: b :: (rest ++ [c])) = mMatch (a :: b :: rest) := by
  have hw := c1_not_word c hc
  have h4 := c1_not_m4 c hc
  have h7 := c1_not_m7 c hc
  match rest with
  | [] =>
    unfold mMatch
    simp [testO, hw, h4, h7]
  | [r] =>
    unfold mMatch
    simp [testO, hw, h4, h7]
  | r :: r2 :: t =>
    unfold mMatch
    simp [testO]

theorem moji_mono : ∀ (fuel : Nat) (s : List Char) (c : Char),
    isC1Control c = true → s.length + 1 ≤ fuel →
    reCountF mMatch fuel s ≤ reCountF mMatch fuel (s ++ [c]) := by
  intro fuel
  induction fuel with
  | zero => intro s c _ h; omega
  | succ f ih =>
    intro s c hc h
    match s with
    | [] => simp [reCountF_nil]
    | [a] =>
      rw [reCountF_cons_none mMatch f a [] (mMatch_single a), reCountF_nil]
      exact Nat.zero_le _
    | a :: b :: t =>
      simp only [List.length_cons] at h
      have heq : mMatch (a :: b :: (t ++ [c])) = mMatch (a :: b :: t) :=
        mMatch_append_c1 c hc a b t
      simp only [List.cons_append]
      cases hm : mMatch (a :: b :: t) with
      | none =>
        rw [reCountF_cons_none mMatch f a (b :: t) hm,
          reCountF_cons_none mMatch f a (b :: (t ++ [c])) (heq.trans hm)]
        have hIH := ih (b :: t) c hc (by simp; omega)
        simpa using hIH
      | some n =>
        rw [reCountF_cons_some mMatch f a (b :: t) n hm,
          reCountF_cons_some mMatch f a (b :: (t ++ [c])) n (heq.trans hm)]
        have hle := mMatch_le (a :: b :: t) n hm
        simp only [List.length_cons] at hle
        have hsplit : (b :: (t ++ [c])).drop (n - 1) =
            ((b :: t).drop (n - 1)) ++ [c] := by
          have hbt : b :: (t ++ [c]) = (b :: t) ++ [c] := by simp
          rw [hbt, List.drop_append_of_le_length (by simp; omega)]
        rw [hsplit]
        have hIH := ih ((b :: t).drop (n - 1)) c hc
          (by simp [List.length_drop]; omega)
        omega

theorem common_not_moji_lead : ∀ x ∈ commonSymbols,
    x ∉ mojiLead1 ∧ x ∉ mojiLead3 ∧ (x == '√') = false ∧
    (x == 'ð') = false ∧ (x == 'đ') = false ∧
    (x == 'â') = false ∧ (x == 'в') = false := by decide

theorem mMatch_common (a b : Char) (rest : List Char)
    (ha : isCommonSymbol a = true) (hb : isCommonSymbol b = true) :
    mMatch (a :: b :: rest) = none := by
  have hfa := common_not_moji_lead a (contains_mem ha)
  have hfb := common_not_moji_lead b (contains_mem hb)
  unfold mMatch
  simp [firstMatch, hfa.1, hfa.2.1, hfb.2.2.1, hfa.2.2.2.1, hfa.2.2.2.2.1,
    hfa.2.2.2.2.2.1, hfa.2.2.2.2.2.2]

theorem moji_common_zero : ∀ (fuel : Nat) (s : List Char),
    (∀ x ∈ s, isCommonSymbol x = true) → reCountF mMatch fuel s = 0 := by
  intro fuel
  induction fuel with
  | zero => intro s _; simp [reCountF]
  | succ f ih =>
    intro s hs
    match s with
    | [] => simp [reCountF_nil]
    | [a] =>
      rw [reCountF_cons_none mMatch f a [] (mMatch_single a), reCountF_nil]
    | a :: b :: t =>
      rw [reCountF_cons_none mMatch f a (b :: t)
        (mMatch_common a b t (hs a (by simp)) (hs b (by simp)))]
      exact ih (b :: t) (fun x hx => hs x (List.mem_cons_of_mem a hx))

theorem cMatch_count : ∀ (fuel : Nat) (s : List Char), s.length ≤ fuel →
    reCountF cMatch fuel s = s.countP isCommonSymbol := by
  intro fuel
  induction fuel with
  | zero =>
    intro s h
    have : s = [] := List.length_eq_zero.mp (Nat.le_zero.mp h)
    subst this
    simp [reCountF_nil]
  | succ f ih =>
    intro s h
    match s with
    | [] => simp [reCountF_nil]
    | c :: rest =>
      simp only [List.length_cons] at h
      cases hq : isCommonSymbol c with
      | true =>
        have hm : cMatch (c :: rest) = some 1 := by simp [cMatch, hq]
        rw [reCountF_cons_some cMatch f c rest 1 hm,
          show rest.drop (1 - 1) = rest from rfl, ih rest (by omega),
          List.countP_cons, hq]
        simp [Nat.add_comm]
      | false =>
        have hm : cMatch (c :: rest) = none := by simp [cMatch, hq]
        rw [reCountF_cons_none cMatch f c rest hm, ih rest (by omega),
          List.countP_cons, hq]
        simp

theorem classify_c1 (c : Char) (h : isC1Control c = true) :
    classifyChar c = 'X' := by
  simp only [isC1Control, decide_eq_true_eq] at h
  simp only [classifyChar]
  rw [if_pos h]

theorem c1_not_mark (c : Char) (h : isC1Control c = true) : isMark c = false := by
  simp only [isC1Control, decide_eq_true_eq] at h
  simp only [isMark, decide_eq_false_iff_not]
  omega

theorem c1_not_common (c : Char) (h : isC1Control c = true) :
    isCommonSymbol c = false := by
  cases hx : isCommonSymbol c with
  | false => rfl
  | true =>
    exfalso
    have hmem := contains_mem hx
    simp only [commonSymbols, List.mem_cons, List.not_mem_nil, or_false] at hmem
    rcases hmem with rfl | rfl | rfl | rfl | rfl | rfl | rfl | rfl | rfl | rfl |
      rfl | rfl | rfl | rfl | rfl | rfl | rfl | rfl | rfl | rfl | rfl <;>
      exact absurd h (by decide)

theorem common_not_mark (c : Char) (h : isCommonSymbol c = true) :
    isMark c = false := by
  have hall : ∀ x ∈ commonSymbols, isMark x = false := by decide
  exact hall c (contains_mem h)

theorem common_class_good : ∀ x ∈ commonSymbols,
    isSingleWeird (classifyChar x) = false := by decide

theorem sequence_weirdness_eq (text : List Char) :
    sequence_weirdness text =
      (reCount wMatch (chars_to_classes (nfc text)) : Int) * 2 +
      ((reCount mMatch (nfc text) : Int) * 2 -
        (reCount cMatch (nfc text) : Int)) := rfl

/-- C1: for every Unicode string `text`, `text_cost text` equals
`sequence_weirdness text` plus the character count of the un-normalized
input, as an exact integer identity with no saturation or clamping. -/
theorem text_cost_eq_weirdness_add_length (text : List Char) :
    text_cost text = sequence_weirdness text + (text.length : Int) := rfl

/-- C2: `sequence_weirdness text` equals `weird * 2 + (mojibake * 2 - common)`
where `weird` counts weirdness-pattern matches on the classified
NFC-normalized text and `mojibake`/`common` count mojibake-signature and
common-symbol matches on the NFC-normalized raw text. -/
theorem sequence_weirdness_formula (text : List Char) :
    sequence_weirdness text =
      (reCount wMatch (chars_to_classes (nfc text)) : Int) * 2 +
      ((reCount mMatch (nfc text) : Int) * 2 -
        (reCount cMatch (nfc text) : Int)) := rfl

/-- C3: `sequence_weirdness` is invariant under pre-normalizing its input,
because the internal NFC normalization is idempotent. -/
theorem sequence_weirdness_nfc_invariant (text : List Char) :
    sequence_weirdness text = sequence_weirdness (nfc text) := by
  rw [sequence_weirdness_eq, sequence_weirdness_eq, nfc_idem]

/-- C6: in any classified string, each character classified as private use
(class `P`) gives rise to its own weirdness match in the left-to-right
non-overlapping scan: the number of matches is at least the number of `P`
characters. -/
theorem weirdness_count_private_use (s : List Char) :
    s.count 'P' ≤ reCount wMatch s :=
  weird_count_P s.length s le_rfl

/-- C7: the empty string scores zero under both `sequence_weirdness` and
`text_cost`. -/
theorem weirdness_and_cost_empty :
    sequence_weirdness [] = 0 ∧ text_cost [] = 0 := by
  constructor <;> rfl

/-- C9: the scoring functions are deterministic: equal inputs give equal
outputs (they are pure functions of their argument, sharing only the
immutable pattern configuration). -/
theorem scores_deterministic (t1 t2 : List Char) (h : t1 = t2) :
    sequence_weirdness t1 = sequence_weirdness t2 ∧
    text_cost t1 = text_cost t2 := by
  subst h
  exact ⟨rfl, rfl⟩

theorem scores_deterministic_witness :
    sequence_weirdness ['a'] = sequence_weirdness ['a'] ∧
    text_cost ['a'] = text_cost ['a'] :=
  scores_deterministic ['a'] ['a'] rfl

/-- C10: `sequence_weirdness text` is bounded below by the negated length of
the NFC-normalized text: each common-symbol match subtracts one and consumes
one normalized character, while the weirdness and mojibake counts only add. -/
theorem sequence_weirdness_lower_bound (text : List Char) :
    -((nfc text).length : Int) ≤ sequence_weirdness text := by
  rw [sequence_weirdness_eq]
  have hc := reCount_le_length cMatch (nfc text)
  omega

/-- C5: any text composed solely of common-symbol characters scores at most
zero: every common symbol subtracts one, no mojibake signature fires, and
each weirdness match (necessarily a two-character category pair) consumes
two common characters. -/
theorem sequence_weirdness_common_nonpos (text : List Char)
    (h : ∀ x ∈ text, isCommonSymbol x = true) :
    sequence_weirdness text ≤ 0 := by
  have hnfc : nfc text = text :=
    nfc_no_mark text (fun x hx => common_not_mark x (h x hx))
  have hm : reCount mMatch text = 0 := by
    rw [reCount_eq_reCountF mMatch text.length text le_rfl]
    exact moji_common_zero text.length text h
  have hcc : reCount cMatch text = text.length := by
    rw [reCount_eq_reCountF cMatch text.length text le_rfl,
      cMatch_count text.length text le_rfl]
    exact List.countP_eq_length.mpr (fun x hx => h x hx)
  have hwgood : ∀ x ∈ chars_to_classes text, isSingleWeird x = false := by
    intro x hx
    simp only [chars_to_classes, List.mem_map] at hx
    obtain ⟨y, hy, rfl⟩ := hx
    exact common_class_good y (contains_mem (h y hy))
  have hw : 2 * reCount wMatch (chars_to_classes text) ≤ text.length := by
    have hh := weird_no_single (chars_to_classes text).length
      (chars_to_classes text) hwgood
    rw [reCount_eq_reCountF wMatch (chars_to_classes text).length _ le_rfl]
    simpa [chars_to_classes] using hh
  rw [sequence_weirdness_eq, hnfc, hm, hcc]
  omega

theorem sequence_weirdness_common_nonpos_witness :
    (∀ x ∈ ['×', '™', '…'], isCommonSymbol x = true) ∧
    sequence_weirdness ['×', '™', '…'] ≤ 0 :=
  ⟨by decide, sequence_weirdness_common_nonpos ['×', '™', '…'] (by decide)⟩

/-- C4: appending a C1 control character increases `sequence_weirdness` by
at least 2: the control character classifies as `X`, adding exactly one
weirdness match, it is not a common symbol, and it can only create (never
destroy) mojibake-signature matches. -/
theorem sequence_weirdness_append_c1 (text : List Char) (c : Char)
    (hc : isC1Control c = true) :
    sequence_weirdness text + 2 ≤ sequence_weirdness (text ++ [c]) := by
  have hnfc : nfc (text ++ [c]) = nfc text ++ [c] :=
    nfc_append_single text.length text c le_rfl (c1_not_mark c hc)
  have hclass : chars_to_classes (nfc text ++ [c]) =
      chars_to_classes (nfc text) ++ ['X'] := by
    simp [chars_to_classes, classify_c1 c hc]
  have hw : reCount wMatch (chars_to_classes (nfc text) ++ ['X']) =
      reCount wMatch (chars_to_classes (nfc text)) + 1 := by
    rw [reCount_eq_reCountF wMatch ((chars_to_classes (nfc text)).length + 1) _
        (by simp),
      reCount_eq_reCountF wMatch ((chars_to_classes (nfc text)).length + 1)
        (chars_to_classes (nfc text)) (by omega)]
    exact weird_append_X ((chars_to_classes (nfc text)).length + 1)
      (chars_to_classes (nfc text)) le_rfl
  have hm : reCount mMatch (nfc text) ≤ reCount mMatch (nfc text ++ [c]) := by
    rw [reCount_eq_reCountF mMatch ((nfc text).length + 1) (nfc text) (by omega),
      reCount_eq_reCountF mMatch ((nfc text).length + 1) (nfc text ++ [c])
        (by simp)]
    exact moji_mono ((nfc text).length + 1) (nfc text) c hc le_rfl
  have hcc : reCount cMatch (nfc text ++ [c]) = reCount cMatch (nfc text) := by
    rw [reCount_eq_reCountF cMatch (nfc text ++ [c]).length _ le_rfl,
      cMatch_count _ _ le_rfl,
      reCount_eq_reCountF cMatch (nfc text).length (nfc text) le_rfl,
      cMatch_count _ _ le_rfl, List.countP_append]
    simp [c1_not_common c hc]
  rw [sequence_weirdness_eq, sequence_weirdness_eq, hnfc, hclass, hw, hcc]
  push_cast
  omega

theorem sequence_weirdness_append_c1_witness :
    isC1Control '\u0085' = true ∧
    sequence_weirdness ['a'] + 2 ≤ sequence_weirdness ['a', '\u0085'] :=
  ⟨by decide, sequence_weirdness_append_c1 ['a'] '\u0085' (by decide)⟩

/-- C8: the scoring functions are total over all Unicode strings modelled
here (including the empty string and strings of unassigned code points) and
always return a finite integer: `sequence_weirdness` lies between `-length`
and `4 * length`, and `text_cost` between `0` and `5 * length`. -/
theorem scores_total_bounded (text : List Char) :
    -(text.length : Int) ≤ sequence_weirdness text ∧
    sequence_weirdness text ≤ 4 * (text.length : Int) ∧
    0 ≤ text_cost text ∧ text_cost text ≤ 5 * (text.length : Int) := by
  have hlen : (nfc text).length ≤ text.length := nfc_length text
  have hw := reCount_le_length wMatch (chars_to_classes (nfc text))
  have hm := reCount_le_length mMatch (nfc text)
  have hc := reCount_le_length cMatch (nfc text)
  have hcl : (chars_to_classes (nfc text)).length = (nfc text).length := by
    simp [chars_to_classes]
  rw [hcl] at hw
  rw [sequence_weirdness_eq, text_cost_eq_weirdness_add_length,
    sequence_weirdness_eq]
  omega

